import Mathlib

/-!
# Verification of the nail-RAG query-processing pipeline

Shallow embedding of the core query-processing pipeline of the repository:

* `app/services/response_cache_service.py` — `ResponseCache` (bounded FIFO
  cache with TTL expiry on read);
* `app/services/category_routing_service.py` — `CategoryRoutingService.route_query`;
* `app/services/rag_service.py` — `RAGService.retrieve_context`,
  `_rerank_results`, `expand_query`, `_validate_answer_quality`,
  `process_query`;
* `app/services/weaviate_service.py` — `WeaviateService.search_similar`,
  `_search_collection`.

Python floats are modelled by `ℚ`; Python `str` by Lean `String` with
character-list based helpers (Python `x in s`, `s.split()`, `s.strip()`,
`s.lower()`, `s.startswith(t)`); Python `dict` (insertion-ordered) by an
association list where overwriting keeps the original position and new keys
are appended; external model/network calls by `Except String`-valued oracle
parameters (an `.error e` value is a call that raised exception `e`).
-/

/-! ## Python string primitives -/

/-- Python `s.lower()` (per-character lowercasing). -/
def pyLower (s : String) : String := ⟨s.data.map Char.toLower⟩

/-- Python `needle in hay` (substring containment). -/
def strContains (hay needle : String) : Bool :=
  decide (needle.data <:+: hay.data)

/-- Python `s.startswith(pre)`. -/
def strStartsWith (s pre : String) : Bool :=
  pre.data.isPrefixOf s.data

/-- Helper for `pyWords`: split a character list on whitespace runs,
dropping empty pieces, accumulating the current word reversed. -/
def wordsAux : List Char → List Char → List String
  | [], acc => if acc.isEmpty then [] else [⟨acc.reverse⟩]
  | c :: cs, acc =>
    if c.isWhitespace then
      if acc.isEmpty then wordsAux cs [] else (⟨acc.reverse⟩ : String) :: wordsAux cs []
    else wordsAux cs (c :: acc)

/-- Python `s.split()` — split on whitespace runs, no empty pieces. -/
def pyWords (s : String) : List String := wordsAux s.data []

/-- Helper for `splitLines`: split a character list at every `'\n'`,
keeping empty pieces (Python `s.split('\n')`). -/
def splitLinesAux : List Char → List Char → List String
  | [], acc => [⟨acc.reverse⟩]
  | c :: cs, acc =>
    if c = '\n' then (⟨acc.reverse⟩ : String) :: splitLinesAux cs []
    else splitLinesAux cs (c :: acc)

/-- Python `s.split('\n')`. -/
def splitLines (s : String) : List String := splitLinesAux s.data []

/-- Python `s.strip()` — drop leading and trailing whitespace. -/
def pyStrip (s : String) : String :=
  ⟨((s.data.dropWhile Char.isWhitespace).reverse.dropWhile Char.isWhitespace).reverse⟩

/-! ## Response cache (`response_cache_service.py`, class `ResponseCache`)

The store `self.cache: Dict[str, tuple]` is an insertion-ordered Python
dict mapping a derived key to `(response, timestamp)`.  We embed it as an
association list: overwriting an existing key keeps its position, a new key
is appended at the end, so the head is the oldest-inserted entry.
`time.time()` values are modelled as `ℚ`; the cached response type is a
parameter `α` (the Python code stores plain dicts).  The MD5 hex digest of
`_generate_key` is modelled by the identity fingerprint: the derived key is
the hashed cache string itself (hash collisions are out of scope). -/

/-- One Python-dict store: key ↦ (response, timestamp), insertion ordered. -/
abbrev CacheStore (α : Type) := List (String × α × ℚ)

/-- `ResponseCache.__init__` state: `self.cache`, `self.max_size`, `self.ttl`. -/
structure Cache (α : Type) where
  store : CacheStore α
  maxSize : ℕ
  ttl : ℚ
  deriving DecidableEq, Repr

/-- `ResponseCache._generate_key`: `cache_string = query`, then
`cache_string += f"|{conversation_context}"` when the context is truthy
(a non-empty string); the MD5 digest is modelled as the cache string. -/
def genKey (query : String) (conversationContext : Option String) : String :=
  match conversationContext with
  | some c => if c ≠ "" then query ++ "|" ++ c else query
  | none => query

/-- Python `d[k] = v` on an insertion-ordered dict: replace in place if the
key exists, else append at the end. -/
def dictInsert {α : Type} (k : String) (v : α × ℚ) : CacheStore α → CacheStore α
  | [] => [(k, v)]
  | e :: es => if e.1 = k then (k, v) :: es else e :: dictInsert k v es

/-- Python `del d[k]` (the dict holds at most one entry per key). -/
def dictErase {α : Type} (k : String) (l : CacheStore α) : CacheStore α :=
  l.eraseP (fun e => e.1 == k)

/-- `ResponseCache.get`: look the derived key up; a hit younger than `ttl`
returns the response, an expired entry is deleted and treated as a miss.
Returns the result together with the updated cache state. -/
def cacheGet {α : Type} (c : Cache α) (now : ℚ) (query : String)
    (conversationContext : Option String) : Option α × Cache α :=
  let key := genKey query conversationContext
  match List.lookup key c.store with
  | none => (none, c)
  | some (response, timestamp) =>
    if now - timestamp < c.ttl then (some response, c)
    else (none, { c with store := dictErase key c.store })

/-- `ResponseCache.set`: when `len(self.cache) >= self.max_size` the entry of
`next(iter(self.cache))` — the first, i.e. oldest-inserted, entry — is
deleted (the head of the store), then the new value is written.
(`next(iter({}))` on an empty store with `max_size = 0` raises in Python;
theorems therefore assume `0 < maxSize`.) -/
def cacheSet {α : Type} (c : Cache α) (now : ℚ) (query : String)
    (conversationContext : Option String) (response : α) : Cache α :=
  let key := genKey query conversationContext
  let store1 := if c.maxSize ≤ c.store.length then c.store.tail else c.store
  { c with store := dictInsert key (response, now) store1 }

/-- A fresh `ResponseCache(max_size, ttl)`. -/
def emptyCache (α : Type) (maxSize : ℕ) (ttl : ℚ) : Cache α := ⟨[], maxSize, ttl⟩

/-- The keys of a cache store, in insertion order. -/
def storeKeys {α : Type} (l : CacheStore α) : List String := l.map (fun e => e.1)

/-- Scenario driver: a sequence of `ResponseCache.set` calls (no
conversation context, one shared response value and timestamp). -/
def insertMany {α : Type} (now : ℚ) (v : α) (qs : List String) (c : Cache α) : Cache α :=
  qs.foldl (fun acc q => cacheSet acc now q none v) c

/-! ## Category router (`category_routing_service.py`, `route_query`)

The classification call is an oracle `Except String String` (`.error` = the
call raised).  `CollectionNames.get_all_nail_collections()` is the fixed
list of the four knowledge collections. -/

/-- `CollectionNames.get_all_nail_collections()` (`constants.py`). -/
def allNailCollections : List String :=
  ["NailColorTheory", "NailSkinTone", "NailSeasonal", "NailShape"]

/-- The parse loop of `route_query`: every known collection name that occurs
as a substring of the (stripped) classification response text, in the fixed
known-collection order. -/
def matchedCollections (result : String) : List String :=
  allNailCollections.filter (fun name => strContains result name)

/-- `CategoryRoutingService.route_query`: disabled ⇒ full set; call failure ⇒
full set; otherwise substring-match each known collection name against the
stripped response text, and fall back to the full set when zero or all four
names matched. -/
def routeQuery (enabled : Bool) (classification : Except String String) : List String :=
  if !enabled then allNailCollections
  else
    match classification with
    | .error _ => allNailCollections
    | .ok raw =>
      let selectedCollections := matchedCollections (pyStrip raw)
      if selectedCollections.isEmpty ∨ selectedCollections.length = allNailCollections.length then
        allNailCollections
      else selectedCollections

/-! ## Query expansion parsing (`rag_service.py`, `expand_query`)

The generation call is an oracle; on success its text is split on `'\n'`,
each line stripped, and lines that are empty or start with one of the
literal prefixes `'1.'`, `'2.'`, `'3.'`, `'-'`, `'*'` are dropped
(`line.strip().startswith(('1.', '2.', '3.', '-', '*'))`). -/

/-- The literal `startswith` prefix tuple in `expand_query`. -/
def listMarkers : List String := ["1.", "2.", "3.", "-", "*"]

/-- The list-comprehension parse of the expansion model's response text. -/
def parseVariants (text : String) : List String :=
  ((splitLines text).map pyStrip).filter
    (fun l => !(l == "") && !(listMarkers.any (fun m => strStartsWith l m)))

/-- `expand_query`: original query prepended, at most 4 parsed variants kept
(`[query] + variants[:4]`); a raised call degrades to `[query]`. -/
def expandQuery (query : String) (call : Except String String) : List String :=
  match call with
  | .ok text => query :: (parseVariants text).take 4
  | .error _ => [query]

/-! ## Retrieval (`weaviate_service.py` and `rag_service.py`)

A raw object returned by the per-collection Weaviate hybrid query
(`collection.query.hybrid`).  Field types follow the collection schema
declared in `WeaviateService._create_collection` (INT / TEXT / TEXT_ARRAY);
`score` is `obj.metadata.score`, absent or falsy modelled as `none`. -/

structure RawResult where
  document_id : Int
  category : String
  title : String
  content : String
  questions : List String
  answers : List String
  chunk_index : Int
  total_chunks : Int
  source_title : String
  score : Option ℚ
  uuid : String
  deriving DecidableEq, Repr

/-- The result dictionary built by `_search_collection` (and later mutated by
`_rerank_results`, which adds the `reranked_score` key). -/
structure SearchResult where
  collection : String
  document_id : Int
  category : String
  title : String
  content : String
  questions : List String
  answers : List String
  chunk_index : Int
  total_chunks : Int
  source_title : String
  score : ℚ
  uuid : String
  reranked_score : Option ℚ := none
  deriving DecidableEq, Repr

/-- The external hybrid-search call: collection name, query text and
requested candidate limit; `.error` models a raised call. -/
def HybridOracle : Type := String → String → ℕ → Except String (List RawResult)

/-- The dict appended by `_search_collection` for one returned object. -/
def mkSearchResult (collectionName : String) (o : RawResult) (score : ℚ) : SearchResult :=
  { collection := collectionName
    document_id := o.document_id
    category := o.category
    title := o.title
    content := o.content
    questions := o.questions
    answers := o.answers
    chunk_index := o.chunk_index
    total_chunks := o.total_chunks
    source_title := o.source_title
    score := score
    uuid := o.uuid }

/-- `WeaviateService._search_collection`: issue the hybrid query, keep only
objects with `score >= similarity_threshold`; any raised exception is caught
and yields an empty contribution. -/
def searchCollection (oracle : HybridOracle) (collectionName query : String)
    (limit : ℕ) (similarityThreshold : ℚ) : List SearchResult :=
  match oracle collectionName query limit with
  | .error _ => []
  | .ok objs =>
    objs.filterMap (fun o =>
      let score := o.score.getD 0
      if similarityThreshold ≤ score then some (mkSearchResult collectionName o score)
      else none)

/-- Insertion step of the stable descending sort: `a` is placed before the
first element whose key is `≤` its own (equal keys keep the earlier-scanned
element first, as Python's stable `list.sort(..., reverse=True)` does). -/
def insertByDesc {α : Type} (key : α → ℚ) (a : α) : List α → List α
  | [] => [a]
  | b :: l => if key b ≤ key a then a :: b :: l else b :: insertByDesc key a l

/-- Python `xs.sort(key=key, reverse=True)`: stable descending sort. -/
def sortByDesc {α : Type} (key : α → ℚ) : List α → List α
  | [] => []
  | a :: l => insertByDesc key a (sortByDesc key l)

/-- The per-variant pool of `search_similar`: one `_search_collection` call
per collection, contributions concatenated (`all_results.extend(results)`;
a raised branch contributes `[]`). -/
def perVariantMerged (oracle : HybridOracle) (collectionNames : List String)
    (query : String) (limit : ℕ) (similarityThreshold : ℚ) : List SearchResult :=
  (collectionNames.map
    (fun c => searchCollection oracle c query limit similarityThreshold)).flatten

/-- `WeaviateService.search_similar`: merge the per-collection results, sort
by raw `score` descending, and return the top `limit`. -/
def searchSimilar (oracle : HybridOracle) (collectionNames : List String)
    (query : String) (limit : ℕ) (similarityThreshold : ℚ) : List SearchResult :=
  (sortByDesc (fun r => r.score)
      (perVariantMerged oracle collectionNames query limit similarityThreshold)).take limit

/-- The dedup key of `_rerank_results`: `(document_id, chunk_index)`. -/
def dedupKey (r : SearchResult) : Int × Int := (r.document_id, r.chunk_index)

/-- The `seen`-set loop of `_rerank_results`, with `seen` carried explicitly. -/
def dedupAux (seen : List (Int × Int)) : List SearchResult → List SearchResult
  | [] => []
  | r :: rs =>
    if dedupKey r ∈ seen then dedupAux seen rs
    else r :: dedupAux (dedupKey r :: seen) rs

/-- Deduplication by `(document_id, chunk_index)`, first-seen kept. -/
def dedupResults (results : List SearchResult) : List SearchResult := dedupAux [] results

/-- `set(query.lower().split())`: the distinct whitespace-separated words of
the lower-cased query. -/
def queryWords (query : String) : List String := (pyWords (pyLower query)).dedup

/-- `sum(1 for word in query_words if word in title)` with
`title = result.get("source_title", "").lower()`. -/
def titleMatchCount (qws : List String) (r : SearchResult) : ℕ :=
  (qws.filter (fun w => strContains (pyLower r.source_title) w)).length

/-- `sum(1 for word in query_words if word in content)` with
`content = result.get("content", "").lower()`. -/
def contentMatchCount (qws : List String) (r : SearchResult) : ℕ :=
  (qws.filter (fun w => strContains (pyLower r.content) w)).length

/-- The per-candidate body of the rerank loop: boost the raw score by
`0.1 * title_matches` (when positive) and `0.05 * min(content_matches, 5)`
(when positive), then store `reranked_score = min(score, 1.0)`. -/
def rerankSingle (qws : List String) (r : SearchResult) : SearchResult :=
  let titleMatches := titleMatchCount qws r
  let score1 := if 0 < titleMatches then r.score + (1 / 10 : ℚ) * titleMatches else r.score
  let contentMatches := contentMatchCount qws r
  let score2 :=
    if 0 < contentMatches then score1 + (1 / 20 : ℚ) * (min contentMatches 5 : ℕ) else score1
  { r with reranked_score := some (min score2 1) }

/-- The closed-form rerank score:
`min(score + 0.1*title_matches + 0.05*min(content_matches, 5), 1.0)`. -/
def rerankFormula (s : ℚ) (titleMatches contentMatches : ℕ) : ℚ :=
  min (s + (1 / 10 : ℚ) * titleMatches + (1 / 20 : ℚ) * (min contentMatches 5 : ℕ)) 1

/-- `RAGService._rerank_results`: early-out on an empty pool, deduplicate,
boost every unique candidate, sort by `reranked_score` descending
(`x.get("reranked_score", x.get("score", 0))` — every element has the key
after the loop). -/
def rerankResults (results : List SearchResult) (query : String) : List SearchResult :=
  if results.isEmpty then []
  else
    let uniqueResults := dedupResults results
    let qws := queryWords query
    let scored := uniqueResults.map (rerankSingle qws)
    sortByDesc (fun r => r.reranked_score.getD r.score) scored

/-- The merge pool of `RAGService.retrieve_context` step 3/4: one
`search_similar` call per query variant, each requesting `limit * 2`
candidates, contributions concatenated (a raised variant contributes `[]`,
already absorbed inside `searchCollection`). -/
def retrievePool (oracle : HybridOracle) (collectionNames : List String)
    (queriesToSearch : List String) (limit : ℕ) (similarityThreshold : ℚ) :
    List SearchResult :=
  (queriesToSearch.map
    (fun v => searchSimilar oracle collectionNames v (limit * 2) similarityThreshold)).flatten

/-- `RAGService.retrieve_context` steps 3–5 (collections and query variants
already resolved): pool, rerank against the original query, truncate to
`limit`. -/
def retrieveContext (oracle : HybridOracle) (collectionNames : List String)
    (queriesToSearch : List String) (query : String) (limit : ℕ)
    (similarityThreshold : ℚ) : List SearchResult :=
  (rerankResults
      (retrievePool oracle collectionNames queriesToSearch limit similarityThreshold)
      query).take limit

/-! ## Answer quality scoring (`rag_service.py`, `_validate_answer_quality`) -/

/-- The fixed hedging-phrase list (`uncertainty_patterns`). -/
def uncertaintyPatterns : List String :=
  ["i don't know", "i'm not sure", "i cannot", "i'm unable", "no information",
   "not available"]

/-- `RAGService._validate_answer_quality`: start at 1.0 (0.0 immediately for
an empty answer or empty context); −0.3 once for a hedging phrase; −0.2 when
none of the top-3 context titles has one of its first three words appearing
in the answer; −0.2 when under 20 words, −0.1 when over 500; clamp to
[0.0, 1.0].  (The `query` argument is accepted but unused, as in the code;
`context_categories` is computed and never read, so it is not modelled.) -/
def validateAnswerQuality (answer : String) (context : List SearchResult)
    (query : String) : ℚ :=
  if answer = "" ∨ context = [] then 0
  else
    let score0 : ℚ := 1
    let answerLower := pyLower answer
    let score1 :=
      if uncertaintyPatterns.any (fun p => strContains answerLower p) then score0 - 3 / 10
      else score0
    let contextTitles := (context.take 3).map (fun r => pyLower r.source_title)
    let referencesContext :=
      contextTitles.any
        (fun t => !(t == "") && ((pyWords t).take 3).any (fun w => strContains answerLower w))
    let score2 := if referencesContext then score1 else score1 - 2 / 10
    let wordCount := (pyWords answer).length
    let score3 :=
      if wordCount < 20 then score2 - 2 / 10
      else if 500 < wordCount then score2 - 1 / 10
      else score2
    max 0 (min 1 score3)

/-! ## Query processor (`rag_service.py`, `process_query`)

The awaited sub-calls are oracle parameters in `Except String`; `.error e`
models the call raising exception `e`, which propagates to `process_query`'s
single `try`/`except` boundary.  The response dictionary is a record whose
optional fields are `none` when the corresponding key is absent from the
Python dict. -/

/-- One entry of the `context_sources` list built by `process_query`. -/
structure SourceMeta where
  title : String
  category : String
  score : ℚ
  deriving DecidableEq, Repr

/-- `{"title": r.get("source_title"), "category": r.get("category"),
"score": r.get("reranked_score", r.get("score", 0))}`. -/
def mkSourceMeta (r : SearchResult) : SourceMeta :=
  { title := r.source_title
    category := r.category
    score := r.reranked_score.getD r.score }

/-- The response dictionary of `process_query`; a field is `none` when the
key is absent from the dict. -/
structure RagResponse where
  answer : String
  context_count : Option ℕ := none
  model : Option String := none
  tokens_used : Option ℕ := none
  quality_score : Option ℚ := none
  error : Option String := none
  context_sources : Option (List SourceMeta) := none
  deriving DecidableEq, Repr

/-- The fixed apology answer of `process_query`'s `except` branch. -/
def processQueryFallbackAnswer : String :=
  "I apologize, but I encountered an error. Please try again."

/-- The dict returned by `process_query`'s `except` branch:
`{"answer": ..., "error": str(e)}` — no other keys. -/
def fallbackResponse (e : String) : RagResponse :=
  { answer := processQueryFallbackAnswer, error := some e }

/-- `RAGService.process_query`: cache lookup (when caching is on), retrieval,
generation, `context_sources` assembly from the top 5 context entries, cache
store (when caching is on) — all inside one `try` whose `except` returns
`fallbackResponse`.  Each stage is an oracle; the first `.error` reaches the
top-level boundary. -/
def processQuery (cachingEnabled : Bool)
    (cacheLookup : Except String (Option RagResponse))
    (retrieval : Except String (List SearchResult))
    (generation : List SearchResult → Except String RagResponse)
    (cacheStore : RagResponse → Except String Unit) : RagResponse :=
  let run : Except String RagResponse :=
    match (if cachingEnabled then cacheLookup else .ok none) with
    | .error e => .error e
    | .ok (some cached) => .ok cached
    | .ok none =>
      match retrieval with
      | .error e => .error e
      | .ok context =>
        match generation context with
        | .error e => .error e
        | .ok response =>
          let response :=
            { response with context_sources := some ((context.take 5).map mkSourceMeta) }
          match (if cachingEnabled then cacheStore response else .ok ()) with
          | .error e => .error e
          | .ok _ => .ok response
  match run with
  | .ok r => r
  | .error e => fallbackResponse e

/-! ## Concrete sample inputs (used by witnesses and counterexamples) -/

/-- A schema-shaped candidate with empty text fields. -/
def sampleResult (collectionName : String) (docId chunkIdx : Int) (score : ℚ)
    (uuid : String) : SearchResult :=
  { collection := collectionName, document_id := docId, category := "", title := "",
    content := "", questions := [], answers := [], chunk_index := chunkIdx,
    total_chunks := 1, source_title := "", score := score, uuid := uuid }

/-- A schema-shaped raw hybrid-search object with empty text fields. -/
def sampleRaw (docId : Int) (score : ℚ) : RawResult :=
  { document_id := docId, category := "", title := "", content := "", questions := [],
    answers := [], chunk_index := 0, total_chunks := 1, source_title := "",
    score := some score, uuid := "" }

/-- A two-collection store in which every candidate clears a 0 threshold:
collection `"A"` answers with documents 1 and 2 (score 1), collection `"B"`
with documents 3 (score 1) and 4 (score 0). -/
def poolOracle : HybridOracle := fun collectionName _query _limit =>
  if collectionName = "A" then .ok [sampleRaw 1 1, sampleRaw 2 1]
  else .ok [sampleRaw 3 1, sampleRaw 4 0]

/-! ### Dict lemmas -/

theorem lookup_eq_none_of_not_mem_keys {α : Type} {k : String} {l : CacheStore α}
    (h : k ∉ storeKeys l) : List.lookup k l = none := by
  induction l with
  | nil => rfl
  | cons e es ih =>
    simp only [storeKeys, List.map_cons, List.mem_cons, not_or] at h
    simp only [List.lookup]
    have : (k == e.1) = false := by
      simp only [beq_eq_false_iff_ne, ne_eq]
      exact h.1
    rw [this]
    exact ih h.2

theorem lookup_dictInsert_self {α : Type} (k : String) (v : α × ℚ) (l : CacheStore α) :
    List.lookup k (dictInsert k v l) = some v := by
  induction l with
  | nil => simp [dictInsert, List.lookup]
  | cons e es ih =>
    by_cases h : e.1 = k
    · simp [dictInsert, h, List.lookup]
    · simp only [dictInsert, if_neg h, List.lookup]
      have : (k == e.1) = false := by
        simp [beq_eq_false_iff_ne]
        exact fun he => h he.symm
      rw [this]
      exact ih

theorem dictInsert_of_not_mem_keys {α : Type} {k : String} (v : α × ℚ) {l : CacheStore α}
    (h : k ∉ storeKeys l) : dictInsert k v l = l ++ [(k, v)] := by
  induction l with
  | nil => rfl
  | cons e es ih =>
    simp only [storeKeys, List.map_cons, List.mem_cons, not_or] at h
    simp only [dictInsert]
    rw [if_neg (fun he => h.1 he.symm), ih h.2]
    rfl

theorem storeKeys_dictInsert_mem {α : Type} {k : String} (v : α × ℚ) {l : CacheStore α}
    (h : k ∈ storeKeys l) : storeKeys (dictInsert k v l) = storeKeys l := by
  induction l with
  | nil => simp [storeKeys] at h
  | cons e es ih =>
    simp only [storeKeys, List.map_cons, List.mem_cons] at h
    by_cases he : e.1 = k
    · simp [dictInsert, he, storeKeys]
    · have : k ∈ storeKeys es := by
        rcases h with h | h
        · exact absurd h.symm he
        · exact h
      have hih := ih this
      simp only [storeKeys] at hih
      simp only [dictInsert, if_neg he, storeKeys, List.map_cons]
      rw [hih]

theorem length_dictInsert_mem {α : Type} {k : String} (v : α × ℚ) {l : CacheStore α}
    (h : k ∈ storeKeys l) : (dictInsert k v l).length = l.length := by
  have := storeKeys_dictInsert_mem v h
  have h1 : (storeKeys (dictInsert k v l)).length = (storeKeys l).length := by rw [this]
  simpa [storeKeys] using h1

theorem length_dictInsert_le {α : Type} (k : String) (v : α × ℚ) (l : CacheStore α) :
    (dictInsert k v l).length ≤ l.length + 1 := by
  induction l with
  | nil => simp [dictInsert]
  | cons e es ih =>
    by_cases h : e.1 = k
    · simp [dictInsert, h]
    · simp only [dictInsert, if_neg h, List.length_cons]
      omega

theorem lookup_map_const {α : Type} (v : α × ℚ) {q : String} {l : List String}
    (h : q ∈ l) : List.lookup q (l.map (fun x => (x, v))) = some v := by
  induction l with
  | nil => simp at h
  | cons x xs ih =>
    by_cases hx : q = x
    · simp [List.lookup, hx]
    · rcases List.mem_cons.mp h with h | h
      · exact absurd h hx
      · simp only [List.map_cons, List.lookup]
        have : (q == x) = false := by simp [beq_eq_false_iff_ne, hx]
        rw [this]
        exact ih h

theorem storeKeys_map_const {α : Type} (v : α) (now : ℚ) (l : List String) :
    storeKeys (l.map (fun q => (q, v, now))) = l := by
  induction l with
  | nil => rfl
  | cons x xs ih => simpa [storeKeys] using ih

theorem nodup_storeKeys_dictInsert {α : Type} {k : String} (v : α × ℚ) {l : CacheStore α}
    (h : (storeKeys l).Nodup) : (storeKeys (dictInsert k v l)).Nodup := by
  by_cases hm : k ∈ storeKeys l
  · rw [storeKeys_dictInsert_mem v hm]; exact h
  · rw [dictInsert_of_not_mem_keys v hm]
    have : storeKeys (l ++ [(k, v)]) = storeKeys l ++ [k] := by simp [storeKeys]
    rw [this]
    simp [List.nodup_append, h, hm]

theorem lookup_dictErase_self {α : Type} {k : String} {l : CacheStore α}
    (h : (storeKeys l).Nodup) : List.lookup k (dictErase k l) = none := by
  induction l with
  | nil => rfl
  | cons e es ih =>
    simp only [storeKeys, List.map_cons, List.nodup_cons] at h
    by_cases he : e.1 = k
    · have : dictErase k (e :: es) = es := by
        simp [dictErase, List.eraseP_cons, he]
      rw [this]
      apply lookup_eq_none_of_not_mem_keys
      rw [← he]
      exact h.1
    · have : dictErase k (e :: es) = e :: dictErase k es := by
        simp only [dictErase, List.eraseP_cons]
        have : (e.1 == k) = false := by simp [beq_eq_false_iff_ne, he]
        simp [this]
      rw [this]
      simp only [List.lookup]
      have : (k == e.1) = false := by
        simp only [beq_eq_false_iff_ne, ne_eq]
        exact fun hk => he hk.symm
      rw [this]
      exact ih h.2

theorem insertMany_fresh {α : Type} (now : ℚ) (v : α) :
    ∀ (qs : List String) (c : Cache α), qs.Nodup →
      (∀ q ∈ qs, q ∉ storeKeys c.store) →
      c.store.length + qs.length ≤ c.maxSize →
      insertMany now v qs c = { c with store := c.store ++ qs.map (fun q => (q, v, now)) } := by
  intro qs
  induction qs with
  | nil => intro c _ _ _; simp [insertMany]
  | cons q rest ih =>
    intro c hnd hfresh hlen
    have hq : q ∉ storeKeys c.store := hfresh q (List.mem_cons_self q rest)
    have hstep : cacheSet c now q none v = { c with store := c.store ++ [(q, v, now)] } := by
      have hcond : ¬ c.maxSize ≤ c.store.length := by
        simp only [List.length_cons] at hlen
        omega
      simp only [cacheSet, genKey, if_neg hcond]
      rw [dictInsert_of_not_mem_keys _ hq]
    have : insertMany now v (q :: rest) c
        = insertMany now v rest { c with store := c.store ++ [(q, v, now)] } := by
      simp only [insertMany, List.foldl_cons]
      rw [hstep]
    rw [this, ih]
    · simp
    · exact hnd.of_cons
    · intro q' hq'
      have hk : storeKeys (c.store ++ [(q, v, now)]) = storeKeys c.store ++ [q] := by
        simp [storeKeys]
      simp only [hk, List.mem_append, List.mem_singleton]
      rintro (h | h)
      · exact hfresh q' (List.mem_cons_of_mem _ hq') h
      · rw [h] at hq'
        exact (List.nodup_cons.mp hnd).1 hq'
    · simp only [List.length_append, List.length_cons, List.length_nil] at hlen ⊢
      omega

/-- **C5** The response cache is FIFO-bounded: (a) a `set` on a store within
capacity keeps it within capacity; (b) a `set` issued while the store holds
at least `max_size` entries first evicts exactly the oldest-inserted entry —
the store becomes `dictInsert key value (store.tail)` and the old head key
(when distinct from the written key) is no longer present; (c) inserting
`max_size + 1` distinct keys into an empty cache leaves exactly the
`max_size` youngest entries: the store equals the insertion list's tail (so
only the first-inserted key is absent and every other key is present). -/
theorem cache_bounded_size_fifo :
    (∀ (α : Type) (c : Cache α) (now : ℚ) (q : String) (ctx : Option String) (v : α),
        0 < c.maxSize → c.store.length ≤ c.maxSize →
        (cacheSet c now q ctx v).store.length ≤ c.maxSize) ∧
    (∀ (α : Type) (c : Cache α) (now : ℚ) (q : String) (ctx : Option String) (v : α)
        (e0 : String × α × ℚ),
        (storeKeys c.store).Nodup → c.maxSize ≤ c.store.length →
        c.store.head? = some e0 → e0.1 ≠ genKey q ctx →
        (cacheSet c now q ctx v).store = dictInsert (genKey q ctx) (v, now) c.store.tail ∧
        List.lookup e0.1 (cacheSet c now q ctx v).store = none) ∧
    (∀ (α : Type) (v : α) (now ttl : ℚ) (m : ℕ) (qs : List String),
        0 < m → qs.Nodup → qs.length = m + 1 →
        (insertMany now v qs (emptyCache α m ttl)).store = qs.tail.map (fun q => (q, v, now)) ∧
        (insertMany now v qs (emptyCache α m ttl)).store.length = m ∧
        (∀ q0, qs.head? = some q0 →
          List.lookup q0 (insertMany now v qs (emptyCache α m ttl)).store = none) ∧
        (∀ q ∈ qs.tail,
          List.lookup q (insertMany now v qs (emptyCache α m ttl)).store = some (v, now))) := by
  refine ⟨?_, ?_, ?_⟩
  · intro α c now q ctx v hpos hlen
    by_cases h : c.maxSize ≤ c.store.length
    · have hne : c.store ≠ [] := by
        intro hnil
        rw [hnil] at h
        simp at h
        omega
      have htail : c.store.tail.length = c.store.length - 1 := List.length_tail c.store
      simp only [cacheSet, if_pos h]
      calc (dictInsert (genKey q ctx) (v, now) c.store.tail).length
          ≤ c.store.tail.length + 1 := length_dictInsert_le _ _ _
        _ ≤ c.maxSize := by
            rw [htail]
            have : c.store.length ≠ 0 := by
              intro h0
              exact hne (List.length_eq_zero.mp h0)
            omega
    · simp only [cacheSet, if_neg h]
      calc (dictInsert (genKey q ctx) (v, now) c.store).length
          ≤ c.store.length + 1 := length_dictInsert_le _ _ _
        _ ≤ c.maxSize := by omega
  · intro α c now q ctx v e0 hnd hfull hhead hne
    obtain ⟨t, hstore⟩ : ∃ t, c.store = e0 :: t := by
      cases hs : c.store with
      | nil => rw [hs] at hhead; simp at hhead
      | cons x xs =>
        rw [hs] at hhead
        simp only [List.head?_cons, Option.some.injEq] at hhead
        exact ⟨xs, by rw [hhead]⟩
    have heq : (cacheSet c now q ctx v).store
        = dictInsert (genKey q ctx) (v, now) c.store.tail := by
      simp only [cacheSet, if_pos hfull]
    refine ⟨heq, ?_⟩
    rw [heq, hstore]
    simp only [List.tail_cons]
    apply lookup_eq_none_of_not_mem_keys
    have hnt : e0.1 ∉ storeKeys t := by
      rw [hstore] at hnd
      simp only [storeKeys, List.map_cons, List.nodup_cons] at hnd
      exact hnd.1
    by_cases hm : genKey q ctx ∈ storeKeys t
    · rw [storeKeys_dictInsert_mem _ hm]
      exact hnt
    · rw [dictInsert_of_not_mem_keys _ hm]
      have : storeKeys (t ++ [(genKey q ctx, v, now)]) = storeKeys t ++ [genKey q ctx] := by
        simp [storeKeys]
      rw [this]
      simp only [List.mem_append, List.mem_singleton]
      rintro (h | h)
      · exact hnt h
      · exact hne h
  · intro α v now ttl m qs hm hnd hlen
    obtain ⟨q0, rest, rfl⟩ : ∃ q0 rest, qs = q0 :: rest := by
      cases qs with
      | nil => simp at hlen
      | cons x xs => exact ⟨x, xs, rfl⟩
    have hrlen : rest.length = m := by
      simp only [List.length_cons] at hlen
      omega
    have hrne : rest ≠ [] := by
      intro h
      rw [h] at hrlen
      simp at hrlen
      omega
    have hq0 : q0 ∉ rest := (List.nodup_cons.mp hnd).1
    have hrnd : rest.Nodup := (List.nodup_cons.mp hnd).2
    -- first insert: no eviction, fresh key
    have hstep1 : cacheSet (emptyCache α m ttl) now q0 none v
        = ⟨[(q0, v, now)], m, ttl⟩ := by
      have : ¬ m ≤ (0 : ℕ) := by omega
      simp [cacheSet, emptyCache, genKey, dictInsert, this]
    -- split the remaining inserts into the filling part and the evicting one
    obtain hnil | ⟨mid, last, hconcat⟩ := List.eq_nil_or_concat rest
    · exact absurd hnil hrne
    rw [List.concat_eq_append] at hconcat
    subst hconcat
    have hmidlen : mid.length = m - 1 := by
      simp only [List.length_append, List.length_cons, List.length_nil] at hrlen
      omega
    have hmidnd : mid.Nodup := (List.nodup_append.mp hrnd).1
    have hlastmem : last ∉ mid := by
      intro hmem
      exact (List.disjoint_of_nodup_append hrnd) hmem (List.mem_singleton_self _)
    have hq0mid : q0 ∉ mid := fun h => hq0 (List.mem_append_left _ h)
    have hfill : insertMany now v mid (⟨[(q0, v, now)], m, ttl⟩ : Cache α)
        = ⟨(q0, v, now) :: mid.map (fun q => (q, v, now)), m, ttl⟩ := by
      rw [insertMany_fresh]
      · simp
      · exact hmidnd
      · intro q hq
        simp only [storeKeys, List.map_cons, List.map_nil, List.mem_singleton]
        intro hq0'
        rw [hq0'] at hq
        exact hq0mid hq
      · simp only [List.length_cons, List.length_nil, hmidlen]
        omega
    have hfold : insertMany now v (q0 :: (mid ++ [last])) (emptyCache α m ttl)
        = cacheSet (⟨(q0, v, now) :: mid.map (fun q => (q, v, now)), m, ttl⟩ : Cache α)
            now last none v := by
      have h1 : insertMany now v (q0 :: (mid ++ [last])) (emptyCache α m ttl)
          = insertMany now v (mid ++ [last]) (cacheSet (emptyCache α m ttl) now q0 none v) := by
        simp [insertMany, List.foldl_cons]
      rw [h1, hstep1]
      simp only [insertMany, List.foldl_append, List.foldl_cons, List.foldl_nil]
      rw [show List.foldl (fun acc q => cacheSet acc now q none v)
            (⟨[(q0, v, now)], m, ttl⟩ : Cache α) mid
          = insertMany now v mid (⟨[(q0, v, now)], m, ttl⟩ : Cache α) from rfl, hfill]
    have hfinal : (insertMany now v (q0 :: (mid ++ [last])) (emptyCache α m ttl)).store
        = (mid ++ [last]).map (fun q => (q, v, now)) := by
      rw [hfold]
      have hcond : m ≤ ((q0, v, now) :: mid.map (fun q => (q, v, now))).length := by
        simp only [List.length_cons, List.length_map, hmidlen]
        omega
      simp only [cacheSet, hcond, if_pos, genKey, List.tail_cons]
      rw [dictInsert_of_not_mem_keys]
      · simp [List.map_append]
      · rw [storeKeys_map_const]
        exact hlastmem
    refine ⟨hfinal, ?_, ?_, ?_⟩
    · rw [hfinal]
      simp only [List.length_map]
      exact hrlen
    · intro x hx
      simp only [List.head?_cons, Option.some.injEq] at hx
      rw [hfinal]
      apply lookup_eq_none_of_not_mem_keys
      rw [storeKeys_map_const, ← hx]
      exact hq0
    · intro q hq
      simp only [List.tail_cons] at hq
      rw [hfinal]
      exact lookup_map_const (v, now) hq

/-- Witness for C5: three distinct keys into an empty 2-slot cache leave the
two youngest entries. -/
theorem cache_bounded_size_fifo_witness :
    (insertMany (7 : ℚ) (5 : ℕ) ["a", "b", "c"] (emptyCache ℕ 2 300)).store
      = [("b", (5 : ℕ), (7 : ℚ)), ("c", 5, 7)] := by
  have h := cache_bounded_size_fifo.2.2 ℕ 5 7 300 2 ["a", "b", "c"]
    (by decide) (by decide) (by decide)
  rw [h.1]
  rfl

/-- **C6** Cache round-trip and lazy expiry: after `set(q, r)` at time `t`,
a `get(q)` at time `t'` returns `r` when the entry's age `t' - t` is
strictly below `ttl`; when the age is at least `ttl` the `get` returns
absent and deletes the entry (its key no longer resolves in the returned
store).  The `Nodup` hypothesis is the Python-dict invariant that a store
holds at most one entry per key. -/
theorem cache_roundtrip_expiry (α : Type) (c : Cache α) (t t' : ℚ) (q : String)
    (ctx : Option String) (v : α) (hnd : (storeKeys c.store).Nodup) :
    (t' - t < c.ttl → (cacheGet (cacheSet c t q ctx v) t' q ctx).1 = some v) ∧
    (c.ttl ≤ t' - t →
      (cacheGet (cacheSet c t q ctx v) t' q ctx).1 = none ∧
      List.lookup (genKey q ctx) ((cacheGet (cacheSet c t q ctx v) t' q ctx).2).store = none) := by
  have httl : (cacheSet c t q ctx v).ttl = c.ttl := rfl
  have hlook : List.lookup (genKey q ctx) (cacheSet c t q ctx v).store = some (v, t) := by
    simp only [cacheSet]
    exact lookup_dictInsert_self _ _ _
  have hnd' : (storeKeys (cacheSet c t q ctx v).store).Nodup := by
    simp only [cacheSet]
    apply nodup_storeKeys_dictInsert
    by_cases h : c.maxSize ≤ c.store.length
    · simp only [if_pos h]
      exact hnd.sublist ((List.tail_sublist c.store).map _)
    · simp only [if_neg h]
      exact hnd
  constructor
  · intro hage
    simp only [cacheGet, hlook, httl, if_pos hage]
  · intro hage
    have hnot : ¬ t' - t < c.ttl := not_lt.mpr hage
    constructor
    · simp only [cacheGet, hlook, httl, if_neg hnot]
    · simp only [cacheGet, hlook, httl, if_neg hnot]
      exact lookup_dictErase_self hnd'

/-- Witness for C6: a hit 5 seconds after caching with a 300-second TTL, and
a miss 301 seconds after. -/
theorem cache_roundtrip_expiry_witness :
    (cacheGet (cacheSet (emptyCache ℕ 100 300) 0 "q" none 42) 5 "q" none).1 = some 42 ∧
    (cacheGet (cacheSet (emptyCache ℕ 100 300) 0 "q" none 42) 301 "q" none).1 = none := by
  constructor
  · exact (cache_roundtrip_expiry ℕ (emptyCache ℕ 100 300) 0 5 "q" none 42
      (by decide)).1 (by norm_num [emptyCache])
  · exact ((cache_roundtrip_expiry ℕ (emptyCache ℕ 100 300) 0 301 "q" none 42
      (by decide)).2 (by norm_num [emptyCache])).1

/-- **C10 (amended)** Eviction on `set` is triggered by the entry count
alone: writing an already-present key while the store holds `max_size`
entries still evicts the oldest-inserted entry first.  When the overwritten
key differs from the oldest key this drops the number of cached keys to
`max_size - 1`; when the overwritten key *is* the oldest one, the entry is
evicted and the key immediately re-inserted, so the count stays `max_size`. -/
theorem cache_overwrite_at_capacity (α : Type) (c : Cache α) (now : ℚ) (q : String)
    (ctx : Option String) (v : α) (e0 : String × α × ℚ)
    (hnd : (storeKeys c.store).Nodup) (hfull : c.store.length = c.maxSize)
    (hhead : c.store.head? = some e0) (hmem : genKey q ctx ∈ storeKeys c.store) :
    (e0.1 ≠ genKey q ctx → (cacheSet c now q ctx v).store.length = c.maxSize - 1) ∧
    (e0.1 = genKey q ctx → (cacheSet c now q ctx v).store.length = c.maxSize) := by
  obtain ⟨tl, hstore⟩ : ∃ tl, c.store = e0 :: tl := by
    cases hs : c.store with
    | nil => rw [hs] at hhead; simp at hhead
    | cons x xs =>
      rw [hs] at hhead
      simp only [List.head?_cons, Option.some.injEq] at hhead
      exact ⟨xs, by rw [hhead]⟩
  have hcond : c.maxSize ≤ (e0 :: tl).length := by
    rw [← hstore]
    exact le_of_eq hfull.symm
  have hset : (cacheSet c now q ctx v).store
      = dictInsert (genKey q ctx) (v, now) tl := by
    simp only [cacheSet, hstore, if_pos hcond, List.tail_cons]
  have htl : tl.length = c.maxSize - 1 := by
    have := hfull
    rw [hstore] at this
    simp only [List.length_cons] at this
    omega
  have hkeys : storeKeys c.store = e0.1 :: storeKeys tl := by
    rw [hstore]; rfl
  have hnotin : e0.1 ∉ storeKeys tl := by
    rw [hkeys] at hnd
    exact (List.nodup_cons.mp hnd).1
  constructor
  · intro hne
    have hintl : genKey q ctx ∈ storeKeys tl := by
      rw [hkeys] at hmem
      rcases List.mem_cons.mp hmem with h | h
      · exact absurd h.symm hne
      · exact h
    rw [hset, length_dictInsert_mem _ hintl, htl]
  · intro heq
    have hfresh : genKey q ctx ∉ storeKeys tl := by
      rw [← heq]
      exact hnotin
    rw [hset, dictInsert_of_not_mem_keys _ hfresh]
    simp only [List.length_append, List.length_cons, List.length_nil, htl]
    have : 0 < c.maxSize := by
      rw [← hfull, hstore]
      simp
    omega

/-- Counterexample to C10 as stated: a 1-slot cache at capacity holding key
`"a"`; overwriting `"a"` evicts it and re-inserts it, leaving the distinct
key count at `max_size` (1), not `max_size - 1` (0). -/
theorem cache_overwrite_at_capacity_counterexample :
    List.lookup "a" (⟨[("a", (1 : ℕ), (0 : ℚ))], 1, 300⟩ : Cache ℕ).store = some (1, 0) ∧
    (⟨[("a", (1 : ℕ), (0 : ℚ))], 1, 300⟩ : Cache ℕ).store.length
      = (⟨[("a", (1 : ℕ), (0 : ℚ))], 1, 300⟩ : Cache ℕ).maxSize ∧
    (cacheSet (⟨[("a", (1 : ℕ), (0 : ℚ))], 1, 300⟩ : Cache ℕ) 5 "a" none 2).store.length = 1 := by
  refine ⟨rfl, rfl, ?_⟩
  rfl

/-- Witness for the amended C10: a 2-slot cache at capacity, overwriting the
younger key `"b"` evicts `"a"` and leaves a single entry. -/
theorem cache_overwrite_at_capacity_witness :
    (cacheSet (⟨[("a", (1 : ℕ), (0 : ℚ)), ("b", 2, 0)], 2, 300⟩ : Cache ℕ) 5 "b" none 9).store.length
      = 1 := by
  have h := (cache_overwrite_at_capacity ℕ
      (⟨[("a", (1 : ℕ), (0 : ℚ)), ("b", 2, 0)], 2, 300⟩ : Cache ℕ) 5 "b" none 9
      ("a", 1, 0) (by decide) (by decide) (by decide) (by decide)).1 (by decide)
  exact h

/-- **C7** Router fail-open and ambiguity fallback: the known collection set
has 4 elements; a raised classification call returns the full set; a parsed
response matching zero or all known names returns the full set; otherwise
the nonempty proper subset of matched names is returned; and `route_query`
never returns an empty list. -/
theorem router_fail_open :
    allNailCollections.length = 4 ∧
    (∀ e, routeQuery true (.error e) = allNailCollections) ∧
    (∀ s, matchedCollections (pyStrip s) = [] ∨
        (matchedCollections (pyStrip s)).length = allNailCollections.length →
      routeQuery true (.ok s) = allNailCollections) ∧
    (∀ (enabled : Bool) (cl : Except String String), routeQuery enabled cl ≠ []) ∧
    (∀ s, matchedCollections (pyStrip s) ≠ [] →
      (matchedCollections (pyStrip s)).length ≠ allNailCollections.length →
      routeQuery true (.ok s) = matchedCollections (pyStrip s) ∧
      matchedCollections (pyStrip s) ⊆ allNailCollections ∧
      matchedCollections (pyStrip s) ≠ allNailCollections) := by
  have hall : allNailCollections ≠ [] := by decide
  have hred : ∀ s, routeQuery true (.ok s)
      = (if (matchedCollections (pyStrip s)).isEmpty ∨
            (matchedCollections (pyStrip s)).length = allNailCollections.length
         then allNailCollections else matchedCollections (pyStrip s)) :=
    fun s => rfl
  refine ⟨rfl, fun e => rfl, ?_, ?_, ?_⟩
  · intro s h
    rw [hred s, if_pos]
    rcases h with h | h
    · exact Or.inl (by rw [List.isEmpty_iff]; exact h)
    · exact Or.inr h
  · intro enabled cl
    cases enabled with
    | false => simpa [routeQuery] using hall
    | true =>
      cases cl with
      | error e => simpa [routeQuery] using hall
      | ok s =>
        rw [hred s]
        split
        · exact hall
        · rename_i hcond
          rw [not_or] at hcond
          intro hnil
          exact hcond.1 (by rw [List.isEmpty_iff]; exact hnil)
  · intro s h1 h2
    have hcond : ¬ ((matchedCollections (pyStrip s)).isEmpty = true ∨
        (matchedCollections (pyStrip s)).length = allNailCollections.length) := by
      rw [not_or]
      exact ⟨by rw [List.isEmpty_iff]; exact h1, h2⟩
    refine ⟨?_, ?_, ?_⟩
    · rw [hred s, if_neg hcond]
    · intro x hx
      exact List.mem_of_mem_filter hx
    · intro heq
      exact h2 (by rw [heq])

/-- Witness for C7: the response `" NailShape "` matches exactly one known
collection and routes to exactly that singleton. -/
theorem router_fail_open_witness :
    routeQuery true (.ok " NailShape ") = ["NailShape"] := by
  have h := router_fail_open.2.2.2.2 " NailShape " (by decide) (by decide)
  exact h.1.trans (by decide)

/-- **C8 (amended)** Expansion-response parsing discards exactly the trimmed
lines that are empty or start with one of the five literal markers `'1.'`,
`'2.'`, `'3.'`, `'-'`, `'*'`: no kept variant starts with any of these, and
every stripped nonempty line free of them is kept.  (Digit-dot prefixes with
digits other than 1–3 are *not* discarded — see the counterexample.) -/
theorem expand_parse_markers :
    (∀ text l, l ∈ parseVariants text →
      l ≠ "" ∧ ∀ m ∈ listMarkers, strStartsWith l m = false) ∧
    (∀ text l, l ∈ (splitLines text).map pyStrip → l ≠ "" →
      (∀ m ∈ listMarkers, strStartsWith l m = false) → l ∈ parseVariants text) := by
  constructor
  · intro text l hl
    rw [parseVariants, List.mem_filter] at hl
    obtain ⟨-, hp⟩ := hl
    simp only [Bool.and_eq_true, Bool.not_eq_true', beq_eq_false_iff_ne, ne_eq,
      List.any_eq_false] at hp
    exact ⟨hp.1, fun m hm => Bool.eq_false_iff.mpr (hp.2 m hm)⟩
  · intro text l hmem hne hmk
    rw [parseVariants, List.mem_filter]
    refine ⟨hmem, ?_⟩
    simp only [Bool.and_eq_true, Bool.not_eq_true', beq_eq_false_iff_ne, ne_eq,
      List.any_eq_false]
    exact ⟨hne, fun m hm => Bool.eq_false_iff.mp (hmk m hm)⟩

/-- Counterexample to C8 as stated: the trimmed line `"4. foo"` starts with
the digit-dot marker `"4."` yet is kept in the variant list — only the
literal prefixes `'1.'`, `'2.'`, `'3.'` are filtered, not every digit. -/
theorem expand_parse_markers_counterexample :
    strStartsWith "4. foo" "4." = true ∧ parseVariants "4. foo" = ["4. foo"] := by
  constructor
  · decide
  · decide

/-- Witness for the amended C8: a response with a dash bullet, a numbered
line and a plain line keeps only the plain line among the parsed variants;
applying the theorem shows the dash line cannot be kept. -/
theorem expand_parse_markers_witness :
    "- foo" ∉ parseVariants "- foo\nbar" := by
  intro hmem
  have h := expand_parse_markers.1 "- foo\nbar" "- foo" hmem
  have := h.2 "-" (by decide)
  simp [strStartsWith] at this

/-- **C9** Quality-score bounds: the score always lies in [0, 1]; an empty
answer or empty context yields exactly 0; and the scorer is a pure function,
hence deterministic (equal on equal inputs). -/
theorem quality_score_bounds (answer : String) (context : List SearchResult)
    (query : String) :
    (0 ≤ validateAnswerQuality answer context query ∧
      validateAnswerQuality answer context query ≤ 1) ∧
    (answer = "" ∨ context = [] → validateAnswerQuality answer context query = 0) ∧
    validateAnswerQuality answer context query = validateAnswerQuality answer context query := by
  refine ⟨?_, ?_, rfl⟩
  · unfold validateAnswerQuality
    split
    · norm_num
    · exact ⟨le_max_left _ _, max_le (by norm_num) (min_le_left _ _)⟩
  · intro h
    unfold validateAnswerQuality
    rw [if_pos h]

/-- Witness for C9: the empty answer scores 0, which is within bounds. -/
theorem quality_score_bounds_witness :
    validateAnswerQuality "" [] "q" = 0 ∧ 0 ≤ validateAnswerQuality "" [] "q" :=
  ⟨(quality_score_bounds "" [] "q").2.1 (Or.inl rfl),
   (quality_score_bounds "" [] "q").1.1⟩

/-! ### Sorting and deduplication lemmas -/

theorem perm_insertByDesc {α : Type} (key : α → ℚ) (a : α) :
    ∀ l : List α, List.Perm (insertByDesc key a l) (a :: l) := by
  intro l
  induction l with
  | nil => exact List.Perm.refl _
  | cons b bs ih =>
    simp only [insertByDesc]
    split
    · exact List.Perm.refl _
    · exact (ih.cons b).trans (List.Perm.swap a b bs)

theorem perm_sortByDesc {α : Type} (key : α → ℚ) :
    ∀ l : List α, List.Perm (sortByDesc key l) l := by
  intro l
  induction l with
  | nil => exact List.Perm.refl _
  | cons a as ih =>
    simp only [sortByDesc]
    exact (perm_insertByDesc key a _).trans (ih.cons a)

theorem length_sortByDesc {α : Type} (key : α → ℚ) (l : List α) :
    (sortByDesc key l).length = l.length :=
  (perm_sortByDesc key l).length_eq

theorem mem_sortByDesc {α : Type} {key : α → ℚ} {l : List α} {a : α} :
    a ∈ sortByDesc key l ↔ a ∈ l :=
  (perm_sortByDesc key l).mem_iff

theorem mem_dedupAux :
    ∀ (l : List SearchResult) (seen : List (Int × Int)) (r : SearchResult),
      r ∈ dedupAux seen l → r ∈ l ∧ dedupKey r ∉ seen := by
  intro l
  induction l with
  | nil => intro seen r h; simp [dedupAux] at h
  | cons x xs ih =>
    intro seen r h
    by_cases hx : dedupKey x ∈ seen
    · rw [dedupAux, if_pos hx] at h
      obtain ⟨h1, h2⟩ := ih seen r h
      exact ⟨List.mem_cons_of_mem _ h1, h2⟩
    · rw [dedupAux, if_neg hx] at h
      rcases List.mem_cons.mp h with rfl | h
      · exact ⟨List.mem_cons_self _ _, hx⟩
      · obtain ⟨h1, h2⟩ := ih _ r h
        simp only [List.mem_cons, not_or] at h2
        exact ⟨List.mem_cons_of_mem _ h1, h2.2⟩

theorem find_dedupAux :
    ∀ (l : List SearchResult) (seen : List (Int × Int)) (r : SearchResult),
      r ∈ dedupAux seen l →
      List.find? (fun x => dedupKey x == dedupKey r) l = some r := by
  intro l
  induction l with
  | nil => intro seen r h; simp [dedupAux] at h
  | cons x xs ih =>
    intro seen r h
    by_cases hx : dedupKey x ∈ seen
    · rw [dedupAux, if_pos hx] at h
      have hmem := mem_dedupAux xs seen r h
      have hne : dedupKey x ≠ dedupKey r := fun he => hmem.2 (he ▸ hx)
      rw [List.find?_cons_of_neg, ih seen r h]
      simp [hne]
    · rw [dedupAux, if_neg hx] at h
      rcases List.mem_cons.mp h with rfl | h
      · rw [List.find?_cons_of_pos]
        simp
      · have hmem := mem_dedupAux xs _ r h
        simp only [List.mem_cons, not_or] at hmem
        have hne : dedupKey x ≠ dedupKey r := fun he => hmem.2.1 he.symm
        rw [List.find?_cons_of_neg, ih _ r h]
        simp [hne]

theorem nodup_keys_dedupAux :
    ∀ (l : List SearchResult) (seen : List (Int × Int)),
      ((dedupAux seen l).map dedupKey).Nodup := by
  intro l
  induction l with
  | nil => intro seen; simp [dedupAux]
  | cons x xs ih =>
    intro seen
    by_cases hx : dedupKey x ∈ seen
    · rw [dedupAux, if_pos hx]
      exact ih seen
    · rw [dedupAux, if_neg hx]
      simp only [List.map_cons, List.nodup_cons]
      refine ⟨?_, ih _⟩
      intro hmem
      obtain ⟨r, hr, hkey⟩ := List.mem_map.mp hmem
      have := (mem_dedupAux xs _ r hr).2
      simp only [List.mem_cons, not_or] at this
      exact this.1 hkey

theorem dedupKey_rerankSingle (qws : List String) (r : SearchResult) :
    dedupKey (rerankSingle qws r) = dedupKey r := rfl

theorem nodup_keys_rerankResults (results : List SearchResult) (query : String) :
    ((rerankResults results query).map dedupKey).Nodup := by
  unfold rerankResults
  split
  · simp
  · have h1 : ((dedupResults results).map (rerankSingle (queryWords query))).map dedupKey
        = (dedupResults results).map dedupKey := by
      rw [List.map_map]
      exact List.map_congr_left (fun r _ => dedupKey_rerankSingle _ r)
    have hperm : List.Perm
        (((dedupResults results).map (rerankSingle (queryWords query))).map dedupKey)
        ((sortByDesc (fun r => r.reranked_score.getD r.score)
            ((dedupResults results).map (rerankSingle (queryWords query)))).map dedupKey) :=
      ((perm_sortByDesc _ _).map dedupKey).symm
    apply hperm.nodup
    rw [h1]
    exact nodup_keys_dedupAux results []

/-- **C2** Retrieval dedup invariant: no two candidates returned by the
orchestrator share a `(document_id, chunk_index)` pair, and the deduplication
step keeps, for each key, exactly the first-seen candidate of the collected
pool (the first `find?` hit for its key is the kept element itself). -/
theorem retrieval_dedup_invariant :
    (∀ (oracle : HybridOracle) (collectionNames queriesToSearch : List String)
        (query : String) (limit : ℕ) (similarityThreshold : ℚ),
      ((retrieveContext oracle collectionNames queriesToSearch query limit
          similarityThreshold).map dedupKey).Nodup) ∧
    (∀ (results : List SearchResult) (r : SearchResult),
      r ∈ dedupResults results →
      List.find? (fun x => dedupKey x == dedupKey r) results = some r) := by
  constructor
  · intro oracle cols qs query limit thr
    unfold retrieveContext
    rw [List.map_take]
    exact List.Nodup.sublist (List.take_sublist _ _) (nodup_keys_rerankResults _ _)
  · intro results r h
    exact find_dedupAux results [] r h

/-- Witness for C2: of two candidates sharing `(document_id, chunk_index)`,
deduplication keeps the first-seen one, and `find?` confirms it is the first
occurrence of its key. -/
theorem retrieval_dedup_invariant_witness :
    List.find? (fun x => dedupKey x == dedupKey (sampleResult "A" 1 0 1 "u1"))
        [sampleResult "A" 1 0 1 "u1", sampleResult "B" 1 0 0 "u2"]
      = some (sampleResult "A" 1 0 1 "u1") :=
  retrieval_dedup_invariant.2
    [sampleResult "A" 1 0 1 "u1", sampleResult "B" 1 0 0 "u2"]
    (sampleResult "A" 1 0 1 "u1") (by decide)

theorem searchCollection_score {oracle : HybridOracle} {c q : String} {lim : ℕ}
    {thr : ℚ} {r : SearchResult} (h : r ∈ searchCollection oracle c q lim thr) :
    thr ≤ r.score := by
  unfold searchCollection at h
  cases ho : oracle c q lim with
  | error e => rw [ho] at h; simp at h
  | ok objs =>
    rw [ho] at h
    obtain ⟨o, _, hmk⟩ := List.mem_filterMap.mp h
    by_cases hth : thr ≤ o.score.getD 0
    · simp only [if_pos hth, Option.some.injEq] at hmk
      rw [← hmk]
      exact hth
    · simp only [if_neg hth] at hmk
      exact Option.noConfusion hmk

/-- **C3 (amended)** Retrieval fan-out: every pooled candidate clears the
similarity threshold and originates from a per-collection hybrid search
requesting `limit * 2` candidates for some (variant, routed collection)
pair; and whenever a variant's merged above-threshold candidates number at
most `2×limit`, none of them is dropped — they all reach the pool.  (The
pool is *not* the full union in general: each variant's merge is sorted and
truncated to `2×limit` before pooling — see the counterexample.) -/
theorem retrieval_pool_soundness :
    (∀ (oracle : HybridOracle) (collectionNames queriesToSearch : List String)
        (limit : ℕ) (similarityThreshold : ℚ) (r : SearchResult),
      r ∈ retrievePool oracle collectionNames queriesToSearch limit similarityThreshold →
      similarityThreshold ≤ r.score ∧
      ∃ v ∈ queriesToSearch, ∃ c ∈ collectionNames,
        r ∈ searchCollection oracle c v (limit * 2) similarityThreshold) ∧
    (∀ (oracle : HybridOracle) (collectionNames queriesToSearch : List String)
        (limit : ℕ) (similarityThreshold : ℚ) (v : String),
      v ∈ queriesToSearch →
      (perVariantMerged oracle collectionNames v (limit * 2) similarityThreshold).length
        ≤ limit * 2 →
      ∀ r ∈ perVariantMerged oracle collectionNames v (limit * 2) similarityThreshold,
        r ∈ retrievePool oracle collectionNames queriesToSearch limit similarityThreshold) := by
  constructor
  · intro oracle cols qs limit thr r hr
    unfold retrievePool at hr
    obtain ⟨l, hl, hrl⟩ := List.mem_flatten.mp hr
    obtain ⟨v, hv, rfl⟩ := List.mem_map.mp hl
    have h1 : r ∈ sortByDesc (fun r => r.score)
        (perVariantMerged oracle cols v (limit * 2) thr) := by
      unfold searchSimilar at hrl
      exact List.mem_of_mem_take hrl
    have h2 : r ∈ perVariantMerged oracle cols v (limit * 2) thr :=
      mem_sortByDesc.mp h1
    unfold perVariantMerged at h2
    obtain ⟨l', hl', hrl'⟩ := List.mem_flatten.mp h2
    obtain ⟨c, hc, rfl⟩ := List.mem_map.mp hl'
    exact ⟨searchCollection_score hrl', v, hv, c, hc, hrl'⟩
  · intro oracle cols qs limit thr v hv hlen r hr
    unfold retrievePool
    rw [List.mem_flatten]
    refine ⟨searchSimilar oracle cols v (limit * 2) thr, List.mem_map_of_mem _ hv, ?_⟩
    unfold searchSimilar
    rw [List.take_of_length_le]
    · exact mem_sortByDesc.mpr hr
    · rw [length_sortByDesc]
      exact hlen

/-- Counterexample to C3 as stated: with `limit = 1`, two collections and
four above-threshold candidates, document 4 is returned by its
per-collection search at the threshold, yet the per-variant sort-and-truncate
to `2×limit = 2` drops it: the pool is not the union of all
variant × collection results. -/
theorem retrieval_pool_union_counterexample :
    sampleResult "B" 4 0 0 "" ∈ searchCollection poolOracle "B" "q" (1 * 2) 0 ∧
    (0 : ℚ) ≤ (sampleResult "B" 4 0 0 "").score ∧
    sampleResult "B" 4 0 0 "" ∉ retrievePool poolOracle ["A", "B"] ["q"] 1 0 := by
  refine ⟨by decide, by decide, by decide⟩

/-- Witness for the amended C3: a single collection answering two candidates
within the `2×limit` budget loses none of them to the pool. -/
theorem retrieval_pool_soundness_witness :
    sampleResult "A" 1 0 1 "" ∈ retrievePool poolOracle ["A"] ["q"] 1 0 :=
  retrieval_pool_soundness.2 poolOracle ["A"] ["q"] 1 0 "q" (by decide) (by decide)
    (sampleResult "A" 1 0 1 "") (by decide)

theorem reranked_score_rerankSingle (qws : List String) (r : SearchResult) :
    (rerankSingle qws r).reranked_score
      = some (rerankFormula r.score (titleMatchCount qws r) (contentMatchCount qws r)) := by
  unfold rerankSingle rerankFormula
  rcases Nat.eq_zero_or_pos (titleMatchCount qws r) with h1 | h1 <;>
    rcases Nat.eq_zero_or_pos (contentMatchCount qws r) with h2 | h2
  · rw [h1, h2]
    norm_num
  · rw [h1]
    simp only [lt_irrefl, if_false, if_pos h2]
    norm_num
  · rw [h2]
    simp only [lt_irrefl, if_false, if_pos h1]
    norm_num
  · simp only [if_pos h1, if_pos h2]

theorem mem_rerankResults {results : List SearchResult} {query : String}
    {u : SearchResult} (h : u ∈ dedupResults results) :
    rerankSingle (queryWords query) u ∈ rerankResults results query := by
  have hne : results.isEmpty = false := by
    cases results with
    | nil => simp [dedupResults, dedupAux] at h
    | cons a l => rfl
  unfold rerankResults
  rw [hne]
  simp only [Bool.false_eq_true, if_false]
  exact mem_sortByDesc.mpr (List.mem_map_of_mem _ h)

/-- **C4** Rerank formula and monotonicity: every deduplicated candidate gets
`reranked_score = min(1, score + 0.1·titleMatches + 0.05·min(contentMatches, 5))`
(with the distinct-query-word match counts against the lower-cased source
title and content), the boosted candidate is among the reranked results, and
one extra title match strictly increases the score whenever the current
score sits below the 1.0 clamp. -/
theorem rerank_formula_monotone :
    (∀ (results : List SearchResult) (query : String) (u : SearchResult),
      u ∈ dedupResults results →
      (rerankSingle (queryWords query) u).reranked_score
        = some (rerankFormula u.score (titleMatchCount (queryWords query) u)
            (contentMatchCount (queryWords query) u)) ∧
      rerankSingle (queryWords query) u ∈ rerankResults results query) ∧
    (∀ (s : ℚ) (tm cm : ℕ), rerankFormula s tm cm < 1 →
      rerankFormula s tm cm < rerankFormula s (tm + 1) cm) := by
  constructor
  · intro results query u h
    exact ⟨reranked_score_rerankSingle _ _, mem_rerankResults h⟩
  · intro s tm cm h
    unfold rerankFormula at *
    set x := s + (1 / 10 : ℚ) * tm + (1 / 20 : ℚ) * ((min cm 5 : ℕ) : ℚ) with hx
    have hX : x < 1 := by
      by_contra hc
      push_neg at hc
      rw [min_eq_right hc] at h
      exact lt_irrefl _ h
    rw [min_eq_left (le_of_lt hX)]
    have hx' : s + (1 / 10 : ℚ) * ((tm + 1 : ℕ) : ℚ) + (1 / 20 : ℚ) * ((min cm 5 : ℕ) : ℚ)
        = x + 1 / 10 := by
      rw [hx]
      push_cast
      ring
    rw [hx', lt_min_iff]
    constructor <;> linarith

/-- Witness for C4: a singleton pool; the sole candidate's reranked score
follows the closed formula and the candidate survives into the output. -/
theorem rerank_formula_monotone_witness :
    (rerankSingle (queryWords "q") (sampleResult "A" 1 0 0 "")).reranked_score
      = some (rerankFormula (sampleResult "A" 1 0 0 "").score
          (titleMatchCount (queryWords "q") (sampleResult "A" 1 0 0 ""))
          (contentMatchCount (queryWords "q") (sampleResult "A" 1 0 0 ""))) ∧
    rerankSingle (queryWords "q") (sampleResult "A" 1 0 0 "")
      ∈ rerankResults [sampleResult "A" 1 0 0 ""] "q" :=
  rerank_formula_monotone.1 [sampleResult "A" 1 0 0 ""] "q"
    (sampleResult "A" 1 0 0 "") (by decide)

/-- **C1 (amended)** `process_query` error boundary: whichever stage raises
first — cache lookup, retrieval, generation, or cache store — the raised
exception is absorbed by the single top-level `try`/`except` and the caller
receives `fallbackResponse e`: the fixed apology answer with the `error`
field populated.  The fallback dict carries *no* `context_sources` (and no
`tokens_used`) entry at all, rather than an explicitly empty one; by
construction (`processQuery` is total) no exception escapes. -/
theorem process_query_error_boundary :
    (∀ (retrieval : Except String (List SearchResult))
        (generation : List SearchResult → Except String RagResponse)
        (cacheStore : RagResponse → Except String Unit) (e : String),
      processQuery true (.error e) retrieval generation cacheStore = fallbackResponse e) ∧
    (∀ (generation : List SearchResult → Except String RagResponse)
        (cacheStore : RagResponse → Except String Unit) (e : String),
      processQuery true (.ok none) (.error e) generation cacheStore = fallbackResponse e) ∧
    (∀ (context : List SearchResult)
        (generation : List SearchResult → Except String RagResponse)
        (cacheStore : RagResponse → Except String Unit) (e : String),
      generation context = .error e →
      processQuery true (.ok none) (.ok context) generation cacheStore = fallbackResponse e) ∧
    (∀ (context : List SearchResult)
        (generation : List SearchResult → Except String RagResponse)
        (cacheStore : RagResponse → Except String Unit) (response : RagResponse) (e : String),
      generation context = .ok response →
      cacheStore { response with
          context_sources := some ((context.take 5).map mkSourceMeta) } = .error e →
      processQuery true (.ok none) (.ok context) generation cacheStore = fallbackResponse e) ∧
    (∀ e, (fallbackResponse e).answer = processQueryFallbackAnswer ∧
      (fallbackResponse e).error = some e ∧
      (fallbackResponse e).context_sources = none ∧
      (fallbackResponse e).tokens_used = none) := by
  refine ⟨fun _ _ _ _ => rfl, fun _ _ _ => rfl, ?_, ?_, fun e => ⟨rfl, rfl, rfl, rfl⟩⟩
  · intro context generation cacheStore e hgen
    unfold processQuery
    simp only [hgen]
    rfl
  · intro context generation cacheStore response e hgen hcs
    unfold processQuery
    simp only [hgen, hcs]
    rfl

/-- Counterexample to C1 as stated: when the first stage raises, the
returned object's `context_sources` key is absent (`none`), not present and
empty (`some []`). -/
theorem process_query_error_boundary_counterexample :
    (processQuery true (.error "boom") (.ok [])
        (fun _ => .ok { answer := "ok" }) (fun _ => .ok ())).error = some "boom" ∧
    (processQuery true (.error "boom") (.ok [])
        (fun _ => .ok { answer := "ok" }) (fun _ => .ok ())).context_sources ≠ some [] := by
  exact ⟨rfl, by decide⟩

/-- Witness for the amended C1: a generation-stage exception is converted
into the fallback response. -/
theorem process_query_error_boundary_witness :
    processQuery true (.ok none) (.ok []) (fun _ => .error "kaput") (fun _ => .ok ())
      = fallbackResponse "kaput" :=
  process_query_error_boundary.2.2.1 [] (fun _ => .error "kaput") (fun _ => .ok ()) "kaput" rfl
